import Mathlib

/-!
Shallow embedding of cnvlib's antitarget sweep (`cnvlib/antitarget.py`),
of the `GenomicArray` container operations used by the claims
(`cnvlib/gary.py`), and of the blank-input path of the tabio read entry
point (`cnvlib/tabio/__init__.py`), together with theorems settling the
specification's claims about them.

Genomic coordinates are modelled as `Int` (Python ints). Chromosome-keyed
dicts are modelled as association lists in insertion order (Python dicts
preserve insertion order).
-/

namespace Cnvkit

/-- A target or accessible interval `(start, end)` on one chromosome. -/
abbrev Iv := Int × Int

/-- The inner `while tgt_start < acc_end` loop of `find_background_regions`
(antitarget.py lines 93-107) for one accessible interval ending at `accEnd`.
The cursor is `some (tgt_start, tgt_end)` for a live target and `none` for
the exhausted iterator (the code's `tgt_start = tgt_end = float('Inf')`
sentinel, which makes the loop condition false forever).  Returns the
intervals yielded inside the loop, the final cursor, the remaining target
list and the final `bg_start`. -/
def sweepLoop (pad accEnd : Int) :
    Option Iv → List Iv → Int → List Iv × Option Iv × List Iv × Int
  | none, rest, bg => ([], none, rest, bg)
  | some (ts, te), rest, bg =>
    if ts < accEnd then
      let em1 : List Iv :=
        if te + pad > bg then (if ts - pad > bg then [(bg, ts - pad)] else []) else []
      let bg1 : Int := if te + pad > bg then te + pad else bg
      match rest with
      | [] => (em1, none, [], bg1)
      | t :: r =>
        let R := sweepLoop pad accEnd (some t) r bg1
        (em1 ++ R.1, R.2)
    else ([], some (ts, te), rest, bg)

/-- One iteration of the `for _, acc_start, acc_end in access_arr.coords()`
loop (antitarget.py lines 87-111): skip accessible intervals spanning at
most `2 * pad_size`, otherwise run the target-splitting loop starting at
`acc_start + pad_size` and finally emit the trailing remainder when it has
positive length. -/
def sweepAcc (pad : Int) (st : Option Iv × List Iv) (acc : Iv) :
    List Iv × Option Iv × List Iv :=
  if acc.2 - acc.1 ≤ 2 * pad then ([], st)
  else
    let R := sweepLoop pad acc.2 st.1 st.2 (acc.1 + pad)
    let tail : List Iv :=
      if acc.2 - pad - R.2.2.2 > 0 then [(R.2.2.2, acc.2 - pad)] else []
    (R.1 ++ tail, R.2.1, R.2.2.1)

/-- The accessible-interval loop of the targeted branch, threading the
target cursor across accessible intervals of the same chromosome. -/
def sweepAccs (pad : Int) : Option Iv × List Iv → List Iv → List Iv
  | _, [] => []
  | st, a :: rest =>
    let R := sweepAcc pad st a
    R.1 ++ sweepAccs pad (R.2.1, R.2.2) rest

/-- Per-chromosome sweep for a chromosome present in `target_chroms`: the
first target is drawn before the accessible loop starts (antitarget.py
line 85; the `assert tgt_start < tgt_end` on line 86 only checks that
first target).  A chromosome key produced by `by_chromosome` always has a
non-empty target sub-table, so the empty case is unreachable in the
program; it is mapped to no output. -/
def sweepChromTargets (pad : Int) (targets accs : List Iv) : List Iv :=
  match targets with
  | [] => []
  | t :: ts => sweepAccs pad (some t, ts) accs

/-- `chrom in target_chroms` plus `target_chroms[chrom]` on the
association-list model of the dict. -/
def lookupChrom (c : String) : List (String × List Iv) → Option (List Iv)
  | [] => none
  | kv :: rest => if c = kv.1 then some kv.2 else lookupChrom c rest

/-- `find_background_regions(access_chroms, target_chroms, pad_size)`
(antitarget.py lines 78-114): iterate accessible chromosomes in dict
order; chromosomes with targets run the splitting sweep, chromosomes
without targets emit every accessible interval shrunk by `pad_size` on
both ends, unconditionally. -/
def find_background_regions (access target_chroms : List (String × List Iv))
    (pad : Int) : List (String × Int × Int) :=
  access.flatMap fun ca =>
    match lookupChrom ca.1 target_chroms with
    | some tgts => (sweepChromTargets pad tgts ca.2).map fun se => (ca.1, se.1, se.2)
    | none => ca.2.map fun se => (ca.1, se.1 + pad, se.2 - pad)

/-- Claim C1: with targets chr1:[1000,2000), accessible chr1:[0,10000) and
`pad_size = 200`, the sweep emits exactly `(chr1, 200, 800)` then
`(chr1, 2200, 9800)`, in that order and nothing else. -/
theorem c1_sweep_end_to_end_example :
    find_background_regions [("chr1", [((0 : Int), (10000 : Int))])]
        [("chr1", [((1000 : Int), (2000 : Int))])] 200
      = [("chr1", 200, 800), ("chr1", 2200, 9800)] := by
  decide

/-- Claim C7: for a chromosome absent from the target dict, the sweep
emits each accessible interval `(s, e)` as `(s + pad, e - pad)`
unconditionally, with no positivity guard. -/
theorem c7_no_target_chromosome (chrom : String) (accs : List Iv)
    (tgts rest : List (String × List Iv)) (pad : Int)
    (h : lookupChrom chrom tgts = none) :
    find_background_regions ((chrom, accs) :: rest) tgts pad
      = accs.map (fun se => (chrom, se.1 + pad, se.2 - pad))
        ++ find_background_regions rest tgts pad := by
  simp only [find_background_regions, List.flatMap_cons, h]

/-- Witness for C7 at the spec's concrete example (chr2 accessible
[0,1000) with pad 100 yields exactly (chr2,100,900)) and at a small
accessible interval, showing the non-positive-length interval (600,500)
is still emitted. -/
theorem c7_no_target_chromosome_witness :
    lookupChrom "chr2" [("chr1", [((1000 : Int), (2000 : Int))])] = none
    ∧ find_background_regions [("chr2", [((0 : Int), (1000 : Int))])]
        [("chr1", [((1000 : Int), (2000 : Int))])] 100 = [("chr2", 100, 900)]
    ∧ find_background_regions [("chr2", [((500 : Int), (600 : Int))])]
        [("chr1", [((1000 : Int), (2000 : Int))])] 100 = [("chr2", 600, 500)] := by
  refine ⟨by decide, ?_, ?_⟩
  · have h := c7_no_target_chromosome "chr2" [((0 : Int), (1000 : Int))]
      [("chr1", [((1000 : Int), (2000 : Int))])] [] 100 (by decide)
    simpa using h
  · have h := c7_no_target_chromosome "chr2" [((500 : Int), (600 : Int))]
      [("chr1", [((1000 : Int), (2000 : Int))])] [] 100 (by decide)
    simpa using h

/-! ## Chromosome-set reconciliation (antitarget.py, `get_background`) -/

/-- The guard `if access_chroms and set(access_chroms).isdisjoint(target_chroms)`
(antitarget.py line 31): `True` exactly when the `ValueError` is raised.
Chromosome-name sets are modelled as lists of names; only membership
matters. -/
def disjoint_check_raises (access target : List String) : Bool :=
  !access.isEmpty && access.all (fun c => !target.contains c)

/-- Counterexample to claim C5: with a non-empty accessible set and an
*empty* target set, the guard raises (an empty set is disjoint from
everything and the code only tests `access_chroms` for truthiness), while
the claim says no error is raised unless both sets are non-empty. -/
theorem c5_counterexample :
    disjoint_check_raises ["chrA"] [] = true
    ∧ ¬ (([] : List String) ≠ []) := by
  constructor
  · decide
  · simp

/-- Claim C5 amended: the reconciliation guard raises exactly when the
accessible chromosome-name set is non-empty and shares no name with the
target set (in particular it also raises when the target set is empty). -/
theorem c5_disjoint_check_amended (access target : List String) :
    disjoint_check_raises access target = true
      ↔ access ≠ [] ∧ ∀ c ∈ access, c ∉ target := by
  simp [disjoint_check_raises, List.isEmpty_iff, List.all_eq_true]

/-- `re.compile(r"(chr)?(\d+|[XYxy])$").match(s)` viewed as a Boolean
(antitarget.py line 41), evaluated on the character list of `s`:
an optional literal lowercase `"chr"` prefix, then either one or more
ASCII digits or a single `X`/`Y`/`x`/`y`, then the end of the string
(`$` also matches just before one trailing newline).  Backtracking over
the optional group never changes the outcome: a string starting with
`"chr"` whose remainder fails the body cannot match the body whole,
since the body never starts with `c`. -/
def canonBody (cs : List Char) : Bool :=
  (!cs.isEmpty && cs.all Char.isDigit)
    || cs = ['X'] || cs = ['Y'] || cs = ['x'] || cs = ['y']

/-- Strip the optional literal `"chr"` group of the canonical pattern. -/
def stripChr (cs : List Char) : List Char :=
  match cs with
  | 'c' :: 'h' :: 'r' :: rest => rest
  | _ => cs

/-- Strip at most one trailing newline, as `$` allows. -/
def stripNl (cs : List Char) : List Char :=
  match cs.getLast? with
  | some c => if c = '\n' then cs.dropLast else cs
  | none => cs

/-- `is_canonical.match(name)` as a Boolean. -/
def is_canonical (s : String) : Bool :=
  canonBody (stripChr (stripNl s.data))

/-- `set(access_chroms) - set(target_chroms)` (antitarget.py line 39),
keeping the accessible order (only membership matters downstream). -/
def untargeted (access target : List String) : List String :=
  access.filter (fun c => !target.contains c)

/-- Python's `max` over the non-empty sequence of target-name lengths
(antitarget.py line 47).  With the empty fallback `0` this agrees with
Python on every non-empty list (lengths are non-negative); on an empty
target dict the Python call would raise, which claim C8's statement
excludes by hypothesis. -/
def maxNameLen (target : List String) : Nat :=
  (target.map String.length).foldl max 0

/-- `chroms_to_skip` (antitarget.py lines 42-49): if any target name is
canonical, skip the non-canonical untargeted names; otherwise skip the
untargeted names longer than the longest target name. -/
def chroms_to_skip (target untgt : List String) : List String :=
  if target.any is_canonical then
    untgt.filter (fun c => !is_canonical c)
  else
    untgt.filter (fun c => decide (c.length > maxNameLen target))

theorem foldl_max_lt {l : List Nat} {a n : Nat} :
    l.foldl max a < n ↔ a < n ∧ ∀ x ∈ l, x < n := by
  induction l generalizing a with
  | nil => simp
  | cons b t ih =>
    simp only [List.foldl_cons, ih, List.mem_cons]
    constructor
    · rintro ⟨hab, ht⟩
      exact ⟨lt_of_le_of_lt (le_max_left a b) hab,
        fun x hx => hx.elim (fun h => h ▸ lt_of_le_of_lt (le_max_right a b) hab)
          (fun h => ht x h)⟩
    · rintro ⟨ha, ht⟩
      exact ⟨max_lt ha (ht b (Or.inl rfl)), fun x hx => ht x (Or.inr hx)⟩

/-- Claim C8: with a non-empty target set, an accessible chromosome
absent from the targets is skipped during reconciliation iff either
(a) some target name matches the canonical pattern and this name does
not, or (b) no target name is canonical and this name is strictly longer
than every target name (i.e. longer than the longest one). -/
theorem c8_untargeted_exclusion (target access : List String) (c : String)
    (hne : target ≠ []) (hca : c ∈ access) (hct : c ∉ target) :
    c ∈ chroms_to_skip target (untargeted access target)
      ↔ ((∃ t ∈ target, is_canonical t = true) ∧ is_canonical c = false)
        ∨ ((∀ t ∈ target, is_canonical t = false)
            ∧ ∀ t ∈ target, t.length < c.length) := by
  have hmem : c ∈ untargeted access target := by
    simp only [untargeted, List.mem_filter, Bool.not_eq_true']
    exact ⟨hca, by simpa using hct⟩
  by_cases hany : target.any is_canonical
  · rw [List.any_eq_true] at hany
    simp only [chroms_to_skip, List.any_eq_true] at *
    rw [if_pos hany]
    simp only [List.mem_filter, hmem, true_and, Bool.not_eq_true']
    constructor
    · intro h; exact Or.inl ⟨hany, h⟩
    · rintro (⟨-, h⟩ | ⟨hnone, -⟩)
      · exact h
      · obtain ⟨t, ht, hcan⟩ := hany
        exact absurd hcan (by simp [hnone t ht])
  · have hnone : ∀ t ∈ target, is_canonical t = false := by
      intro t ht
      by_contra hcan
      exact hany (List.any_eq_true.mpr ⟨t, ht, by simpa using hcan⟩)
    rw [chroms_to_skip, if_neg hany]
    simp only [List.mem_filter, hmem, true_and, decide_eq_true_eq]
    constructor
    · intro h
      refine Or.inr ⟨hnone, fun t ht => ?_⟩
      have : t.length ≤ maxNameLen target := by
        by_contra hgt
        push_neg at hgt
        have := (foldl_max_lt.mp hgt).2 t.length (List.mem_map_of_mem _ ht)
        omega
      omega
    · rintro (⟨⟨t, ht, hcan⟩, -⟩ | ⟨-, hall⟩)
      · exact absurd hcan (by simp [hnone t ht])
      · have : maxNameLen target < c.length := by
          apply foldl_max_lt.mpr
          refine ⟨?_, ?_⟩
          · cases target with
            | nil => exact absurd rfl hne
            | cons t ts =>
              have := hall t (List.mem_cons_self t ts)
              omega
          · intro x hx
            obtain ⟨t, ht, rfl⟩ := List.mem_map.mp hx
            exact hall t ht
        omega

/-- Witness for C8: targets `["chr1", "weird"]` (where `chr1` is
canonical), untargeted accessible name `"chrUn_gl000220"` is skipped
because it is not canonical. -/
theorem c8_untargeted_exclusion_witness :
    (["chr1", "weird"] : List String) ≠ []
    ∧ ("chrUn_gl000220" ∈
        chroms_to_skip ["chr1", "weird"]
          (untargeted ["chr1", "chrUn_gl000220"] ["chr1", "weird"])
      ↔ ((∃ t ∈ (["chr1", "weird"] : List String), is_canonical t = true)
            ∧ is_canonical "chrUn_gl000220" = false)
        ∨ ((∀ t ∈ (["chr1", "weird"] : List String), is_canonical t = false)
            ∧ ∀ t ∈ (["chr1", "weird"] : List String),
                t.length < "chrUn_gl000220".length)) := by
  refine ⟨by decide, ?_⟩
  exact c8_untargeted_exclusion ["chr1", "weird"] ["chr1", "chrUn_gl000220"]
    "chrUn_gl000220" (by decide) (by decide) (by decide)

/-! ## The `GenomicArray` container (gary.py) -/

/-- One row of a `GenomicArray` data table, restricted to the three
required columns used by the claims. -/
structure Row where
  chromosome : String
  start : Int
  «end» : Int
deriving DecidableEq, Repr, Inhabited

/-- `uniq(arr)` (gary.py lines 12-20): yield each element that differs
from the previous one, starting from the sentinel `prev = None` (which no
string equals). -/
def uniqA (prev : Option String) : List String → List String
  | [] => []
  | a :: t => if some a = prev then uniqA prev t else a :: uniqA (some a) t

def uniq (l : List String) : List String := uniqA none l

/-- `by_chromosome` (gary.py lines 209-212): for each element of
`uniq(chromosome column)`, pair it with the boolean-mask selection
`self[self.chromosome == chrom]` of the whole table. -/
def by_chromosome (rows : List Row) : List (String × List Row) :=
  (uniq (rows.map Row.chromosome)).map
    (fun c => (c, rows.filter (fun r => r.chromosome == c)))

/-- `numpy.searchsorted` binary search, fuel-indexed so it is structural
(the fuel `a.length + 1` always suffices, since `hi - lo` strictly
decreases).  `p` is `(< v)` for side `'left'` and `(≤ v)` for side
`'right'`; out-of-range probes read the default `0`, which never happens
for in-range `lo`/`hi`. -/
def bsearchAux (p : Int → Bool) (a : List Int) : Nat → Nat → Nat → Nat
  | 0, lo, _ => lo
  | fuel + 1, lo, hi =>
    if lo < hi then
      if p (a.getD ((lo + hi) / 2) 0) then bsearchAux p a fuel ((lo + hi) / 2 + 1) hi
      else bsearchAux p a fuel lo ((lo + hi) / 2)
    else lo

def searchsorted_left (a : List Int) (v : Int) : Nat :=
  bsearchAux (fun x => decide (x < v)) a (a.length + 1) 0 a.length

def searchsorted_right (a : List Int) (v : Int) : Nat :=
  bsearchAux (fun x => decide (x ≤ v)) a (a.length + 1) 0 a.length

/-- Python truthiness of the `end` argument of `in_range` (`None` and `0`
are falsy). -/
def truthy : Option Int → Bool
  | none => false
  | some v => v != 0

/-- `table.start[table.start < start] = start` (gary.py line 247): clamp a
row's 5' endpoint up to the boundary. -/
def clampStart (start : Int) (r : Row) : Row :=
  if r.start < start then { r with start := start } else r

/-- `table.end[table.end > end] = end` (gary.py line 255): clamp a row's 3'
endpoint down to the boundary. -/
def clampEnd (e : Int) (r : Row) : Row :=
  if e < r.«end» then { r with «end» := e } else r

/-- `in_range(chrom, start, end, trim)` (gary.py lines 232-258).  The
chromosome restriction is a boolean-mask selection (which cannot raise for
an absent chromosome value — the `except KeyError` branch on line 240 can
only fire if the `chromosome` column itself is missing, which the
constructor forbids).  Each bound, when truthy, slices the table with a
`searchsorted` binary search; with `trim=True` the straddling endpoints
are clamped to the bound, and the start-side clamp happens before the
end-side search. -/
def in_range (rows : List Row) (chrom : String) (start : Int) (stop : Option Int)
    (trim : Bool) : List Row :=
  let table := rows.filter (fun r => r.chromosome == chrom)
  let t1 :=
    if start ≠ 0 then
      if trim then
        (table.drop (searchsorted_right (table.map Row.«end») start)).map
          (clampStart start)
      else
        table.drop (searchsorted_left (table.map Row.start) start)
    else table
  if truthy stop then
    let e := stop.getD 0
    if trim then
      (t1.take (searchsorted_left (t1.map Row.start) e)).map (clampEnd e)
    else
      t1.take (searchsorted_right (t1.map Row.«end») e)
  else t1

/-- `in_ranges(chrom, starts, ends, trim)` (gary.py lines 260-277): with
both bound sequences `None` return the chromosome's rows, else zip the
bounds (missing starts default to zeros) and concatenate the `in_range`
results. -/
def in_ranges (rows : List Row) (chrom : String) (starts ends : Option (List Int))
    (trim : Bool) : List Row :=
  let table := rows.filter (fun r => r.chromosome == chrom)
  match starts, ends with
  | none, none => table
  | _, _ =>
    let es := ends.getD []
    let ss := starts.getD (List.replicate es.length 0)
    (ss.zip es).flatMap (fun se => in_range rows chrom se.1 (some se.2) trim)

/-- Claim C10: a `start` bound of 0 and an `end` bound of `None` or 0 are
falsy, so neither search-and-clamp step runs and `in_range` returns all of
the chromosome's rows unmodified, for both trim modes. -/
theorem c10_zero_bounds_are_no_bounds (rows : List Row) (chrom : String)
    (stop : Option Int) (trim : Bool) (h : stop = none ∨ stop = some 0) :
    in_range rows chrom 0 stop trim
      = rows.filter (fun r => r.chromosome == chrom) := by
  have ht : truthy stop = false := by rcases h with h | h <;> simp [h, truthy]
  simp [in_range, ht]

/-- Witness for C10 on a two-chromosome table, for both `None` and `0`
end bounds. -/
theorem c10_zero_bounds_are_no_bounds_witness :
    ((none : Option Int) = none ∨ (none : Option Int) = some 0)
    ∧ in_range [({chromosome := "chr1", start := 5, «end» := 9} : Row),
        {chromosome := "chr2", start := 1, «end» := 3}] "chr1" 0 none true
      = [{chromosome := "chr1", start := 5, «end» := 9}]
    ∧ in_range [({chromosome := "chr1", start := 5, «end» := 9} : Row),
        {chromosome := "chr2", start := 1, «end» := 3}] "chr1" 0 (some 0) false
      = [{chromosome := "chr1", start := 5, «end» := 9}] := by
  refine ⟨Or.inl rfl, ?_, ?_⟩
  · rw [c10_zero_bounds_are_no_bounds _ _ _ _ (Or.inl rfl)]
    decide
  · rw [c10_zero_bounds_are_no_bounds _ _ _ _ (Or.inr rfl)]
    decide

/-- Claim C4 evaluated at its failing input: querying a chromosome absent
from the table returns the empty selection from both `in_range` and
`in_ranges` — the boolean mask `self.data['chromosome'] == chrom` is
all-false for an absent value and never raises, so the
`KeyError("Chromosome %s is not in this probe set")` re-raise is
unreachable dead code. -/
theorem c4_absent_chromosome_yields_empty :
    in_range [({chromosome := "chr1", start := 0, «end» := 10} : Row)]
        "chr2" 5 (some 7) false = []
    ∧ in_ranges [({chromosome := "chr1", start := 0, «end» := 10} : Row)]
        "chr2" (some [3]) (some [7]) false = [] := by
  decide

/-- First-appearance deduplication, following the spec's words for
`by_chromosome` ("one per distinct chromosome in first-appearance order"),
used as the reference value in the corrected claim C6. -/
def firstOccur (seen : List String) : List String → List String
  | [] => []
  | a :: t => if a ∈ seen then firstOccur seen t else a :: firstOccur (a :: seen) t

/-- Equal chromosome values form contiguous blocks from `cur` on:
no element of `seen` (a closed block) reappears. -/
def blockyFrom (seen : List String) (cur : String) : List String → Bool
  | [] => true
  | a :: t =>
    if a = cur then blockyFrom seen cur t
    else if a ∈ seen then false
    else blockyFrom (cur :: seen) a t

/-- Equal values of the list form contiguous blocks (true for any table
sorted by chromosome, in particular after `sort`). -/
def blocky : List String → Bool
  | [] => true
  | a :: t => blockyFrom [] a t

theorem uniqA_eq_firstOccur (t : List String) :
    ∀ (cur : String) (seen : List String),
      blockyFrom seen cur t = true →
      uniqA (some cur) t = firstOccur (cur :: seen) t := by
  induction t with
  | nil => intro cur seen _; rfl
  | cons a t ih =>
    intro cur seen hb
    rw [blockyFrom] at hb
    by_cases hac : a = cur
    · subst hac
      rw [if_pos rfl] at hb
      rw [uniqA, if_pos rfl, firstOccur, if_pos (List.mem_cons_self a seen)]
      exact ih a seen hb
    · rw [if_neg hac] at hb
      have hseen : a ∉ seen := by
        intro hmem
        rw [if_pos hmem] at hb
        exact Bool.false_ne_true hb
      rw [if_neg hseen] at hb
      have hnot : ¬ a ∈ cur :: seen := by
        intro hmem
        rcases List.mem_cons.mp hmem with h | h
        · exact hac h
        · exact hseen h
      rw [uniqA, if_neg (by simpa using hac), firstOccur, if_neg hnot]
      rw [ih a (cur :: seen) hb]

theorem uniq_eq_firstOccur (l : List String) (hb : blocky l = true) :
    uniq l = firstOccur [] l := by
  cases l with
  | nil => rfl
  | cons a t =>
    rw [blocky] at hb
    rw [uniq, uniqA, if_neg (by simp), firstOccur, if_neg (List.not_mem_nil a)]
    exact congrArg (a :: ·) (uniqA_eq_firstOccur t a [] hb)

theorem firstOccur_not_mem_seen (l : List String) :
    ∀ (seen : List String) (x : String), x ∈ firstOccur seen l → x ∉ seen := by
  induction l with
  | nil => intro seen x hx; simp [firstOccur] at hx
  | cons a t ih =>
    intro seen x hx
    rw [firstOccur] at hx
    by_cases ha : a ∈ seen
    · rw [if_pos ha] at hx
      exact ih seen x hx
    · rw [if_neg ha] at hx
      rcases List.mem_cons.mp hx with h | h
      · exact h ▸ ha
      · intro hxs
        exact ih (a :: seen) x h (List.mem_cons_of_mem a hxs)

theorem firstOccur_nodup (l : List String) :
    ∀ seen : List String, (firstOccur seen l).Nodup := by
  induction l with
  | nil => intro seen; simp [firstOccur]
  | cons a t ih =>
    intro seen
    rw [firstOccur]
    by_cases ha : a ∈ seen
    · rw [if_pos ha]; exact ih seen
    · rw [if_neg ha]
      refine List.nodup_cons.mpr ⟨?_, ih (a :: seen)⟩
      intro hmem
      exact firstOccur_not_mem_seen t (a :: seen) a hmem (List.mem_cons_self a seen)

theorem mem_firstOccur (l : List String) :
    ∀ (seen : List String) (x : String), x ∈ l →
      x ∈ firstOccur seen l ∨ x ∈ seen := by
  induction l with
  | nil => intro seen x hx; cases hx
  | cons a t ih =>
    intro seen x hx
    rw [firstOccur]
    by_cases ha : a ∈ seen
    · rw [if_pos ha]
      rcases List.mem_cons.mp hx with h | h
      · exact Or.inr (h ▸ ha)
      · exact ih seen x h
    · rw [if_neg ha]
      rcases List.mem_cons.mp hx with h | h
      · exact Or.inl (h ▸ List.mem_cons_self a _)
      · rcases ih (a :: seen) x h with h' | h'
        · exact Or.inl (List.mem_cons_of_mem a h')
        · rcases List.mem_cons.mp h' with h'' | h''
          · exact Or.inl (h'' ▸ List.mem_cons_self a _)
          · exact Or.inr h''

/-- Counterexample to claim C6: on a table whose chromosome values are not
contiguous (`chr1, chr2, chr1`), `uniq` only collapses *adjacent*
duplicates, so `by_chromosome` yields the pair for `chr1` twice — not one
pair per distinct chromosome. -/
theorem c6_counterexample :
    ((by_chromosome [({chromosome := "chr1", start := 0, «end» := 1} : Row),
        {chromosome := "chr2", start := 0, «end» := 1},
        {chromosome := "chr1", start := 5, «end» := 6}]).map Prod.fst
      = ["chr1", "chr2", "chr1"])
    ∧ ¬ ((by_chromosome [({chromosome := "chr1", start := 0, «end» := 1} : Row),
        {chromosome := "chr2", start := 0, «end» := 1},
        {chromosome := "chr1", start := 5, «end» := 6}]).map Prod.fst).Nodup := by
  decide

/-- Claim C6 amended: for a table whose equal chromosome values are
contiguous (each chromosome's rows form one block, as after any sort by
chromosome), `by_chromosome` yields exactly one pair per distinct
chromosome, in first-appearance order, each paired with exactly the
table's rows for that chromosome in their original relative order. -/
theorem c6_by_chromosome_amended (rows : List Row)
    (hb : blocky (rows.map Row.chromosome) = true) :
    by_chromosome rows
        = (firstOccur [] (rows.map Row.chromosome)).map
            (fun c => (c, rows.filter (fun r => r.chromosome == c)))
    ∧ ((by_chromosome rows).map Prod.fst).Nodup
    ∧ ∀ r ∈ rows, r.chromosome ∈ (by_chromosome rows).map Prod.fst := by
  have hkeys : (by_chromosome rows).map Prod.fst
      = uniq (rows.map Row.chromosome) := by
    simp only [by_chromosome, List.map_map]
    exact List.map_id _
  refine ⟨?_, ?_, ?_⟩
  · rw [by_chromosome, uniq_eq_firstOccur _ hb]
  · rw [hkeys, uniq_eq_firstOccur _ hb]
    exact firstOccur_nodup _ []
  · intro r hr
    rw [hkeys, uniq_eq_firstOccur _ hb]
    rcases mem_firstOccur (rows.map Row.chromosome) [] r.chromosome
        (List.mem_map_of_mem Row.chromosome hr) with h | h
    · exact h
    · cases h

/-- Witness for C6 on a concrete contiguous (sorted) two-chromosome
table. -/
theorem c6_by_chromosome_amended_witness :
    blocky ([({chromosome := "chr1", start := 0, «end» := 1} : Row),
        {chromosome := "chr1", start := 5, «end» := 6},
        {chromosome := "chr2", start := 0, «end» := 1}].map Row.chromosome) = true
    ∧ by_chromosome [({chromosome := "chr1", start := 0, «end» := 1} : Row),
        {chromosome := "chr1", start := 5, «end» := 6},
        {chromosome := "chr2", start := 0, «end» := 1}]
      = (firstOccur [] ([({chromosome := "chr1", start := 0, «end» := 1} : Row),
          {chromosome := "chr1", start := 5, «end» := 6},
          {chromosome := "chr2", start := 0, «end» := 1}].map Row.chromosome)).map
          (fun c => (c, [({chromosome := "chr1", start := 0, «end» := 1} : Row),
            {chromosome := "chr1", start := 5, «end» := 6},
            {chromosome := "chr2", start := 0, «end» := 1}].filter
              (fun r => r.chromosome == c))) := by
  refine ⟨by decide, ?_⟩
  exact (c6_by_chromosome_amended _ (by decide)).1

/-! ## Blank-input path of the tabio read entry point -/

/-- The value bound to `dframe` when constructing the resulting genome
object in `read`: either a pandas DataFrame with a column schema, or the
plain Python list `[]` that `read` substitutes when the format reader
raises `ValueError` on blank input (tabio/__init__.py lines 58-65). -/
inductive TableArg
  | pyList
  | dframe (columns : List String)
deriving DecidableEq, Repr

/-- Outcome of `GenomicArray.__init__(data_table, meta_dict)`
(gary.py lines 34-42). -/
inductive InitOutcome
  | ok
  | attributeError
  | valueError
deriving DecidableEq, Repr

def requiredColumns : List String := ["chromosome", "start", "end"]

/-- `GenomicArray.__init__`: evaluating
`all(c in data_table.columns for c in self._required_columns)` first
accesses `data_table.columns`; a plain Python list has no such attribute,
so the call raises `AttributeError` before any membership check; a real
DataFrame missing a required column raises the constructor's
`ValueError`. -/
def genomicArrayInit : TableArg → InitOutcome
  | .pyList => .attributeError
  | .dframe cols =>
      if requiredColumns.all (fun c => cols.contains c) then .ok else .valueError

/-- `read` on blank/unreadable input: the reader raises `ValueError`, the
handler sets `dframe = []` and `suggest_into = GA`, and the entry point
then evaluates `GA([], meta)` (tabio/__init__.py lines 58-73). -/
def read_blank_input_outcome : InitOutcome := genomicArrayInit .pyList

/-- Claim C9 evaluated at its failing input: the blank-input fallback does
not produce an empty table — constructing `GenomicArray` from the plain
list `[]` raises `AttributeError` (and even a genuinely empty DataFrame
would fail the required-columns check with `ValueError`), so `read`
propagates an exception instead of returning an empty table carrying the
requested metadata. -/
theorem c9_blank_input_crashes :
    read_blank_input_outcome = InitOutcome.attributeError
    ∧ genomicArrayInit (TableArg.dframe []) = InitOutcome.valueError
    ∧ read_blank_input_outcome ≠ InitOutcome.ok := by
  exact ⟨rfl, by decide, by decide⟩

/-- Counterexample to claim C3: in a table sorted by (chromosome, start)
but containing nested intervals (1,100) ⊃ (10,20), the end column is not
sorted, so the binary search over ends keeps the containing interval:
`in_range("chr1", 1, 50, trim=False)` returns both rows although (1,100)
has end 100 > 50, while the claim promises exactly the intervals with
start ≥ 1 and end ≤ 50. -/
theorem c3_counterexample :
    in_range [({chromosome := "chr1", start := 1, «end» := 100} : Row),
        {chromosome := "chr1", start := 10, «end» := 20}] "chr1" 1 (some 50) false
      = [{chromosome := "chr1", start := 1, «end» := 100},
         {chromosome := "chr1", start := 10, «end» := 20}]
    ∧ in_range [({chromosome := "chr1", start := 1, «end» := 100} : Row),
        {chromosome := "chr1", start := 10, «end» := 20}] "chr1" 1 (some 50) false
      ≠ ([({chromosome := "chr1", start := 1, «end» := 100} : Row),
          {chromosome := "chr1", start := 10, «end» := 20}].filter
          (fun r => decide (1 ≤ r.start ∧ r.«end» ≤ 50))) := by
  decide

/-! ## Correctness of the `searchsorted` slicing on sorted columns -/

theorem sorted_getD_mono {a : List Int} (hs : List.Sorted (· ≤ ·) a)
    {i j : Nat} (hij : i ≤ j) (hj : j < a.length) : a.getD i 0 ≤ a.getD j 0 := by
  rcases Nat.lt_or_ge i j with hlt | hge
  · have hi : i < a.length := lt_trans hlt hj
    rw [a.getD_eq_getElem 0 hi, a.getD_eq_getElem 0 hj]
    exact List.pairwise_iff_getElem.mp hs i j hi hj hlt
  · have : i = j := le_antisymm hij hge
    subst this
    exact le_refl _

theorem bsearchAux_spec (p : Int → Bool) (a : List Int)
    (hmono : ∀ i j : Nat, i ≤ j → j < a.length →
      p (a.getD j 0) = true → p (a.getD i 0) = true) :
    ∀ (fuel lo hi : Nat), hi - lo ≤ fuel → lo ≤ hi → hi ≤ a.length →
      (∀ i, i < lo → p (a.getD i 0) = true) →
      (∀ i, hi ≤ i → i < a.length → p (a.getD i 0) = false) →
      bsearchAux p a fuel lo hi ≤ a.length
      ∧ (∀ i, i < bsearchAux p a fuel lo hi → p (a.getD i 0) = true)
      ∧ (∀ i, bsearchAux p a fuel lo hi ≤ i → i < a.length →
          p (a.getD i 0) = false) := by
  intro fuel
  induction fuel with
  | zero =>
    intro lo hi hfuel hlh hha hbef haft
    have heq : lo = hi := by omega
    subst heq
    exact ⟨le_trans hlh hha, hbef, haft⟩
  | succ fuel ih =>
    intro lo hi hfuel hlh hha hbef haft
    rw [bsearchAux]
    by_cases hlt : lo < hi
    · rw [if_pos hlt]
      by_cases hp : p (a.getD ((lo + hi) / 2) 0) = true
      · rw [if_pos hp]
        exact ih ((lo + hi) / 2 + 1) hi (by omega) (by omega) hha
          (fun i hilt => hmono i ((lo + hi) / 2) (by omega) (by omega) hp)
          haft
      · rw [if_neg hp]
        have hp' : p (a.getD ((lo + hi) / 2) 0) = false :=
          Bool.eq_false_iff.mpr hp
        exact ih lo ((lo + hi) / 2) (by omega) (by omega) (by omega)
          hbef
          (fun i hmi hila => by
            cases h : p (a.getD i 0)
            · rfl
            · exact absurd (hmono ((lo + hi) / 2) i hmi hila h)
                (Bool.eq_false_iff.mp hp'))
    · rw [if_neg hlt]
      have heq : lo = hi := by omega
      subst heq
      exact ⟨le_trans hlh hha, hbef, haft⟩

theorem searchsorted_left_spec (a : List Int) (v : Int)
    (hs : List.Sorted (· ≤ ·) a) :
    searchsorted_left a v ≤ a.length
    ∧ (∀ i, i < searchsorted_left a v → a.getD i 0 < v)
    ∧ (∀ i, searchsorted_left a v ≤ i → i < a.length → v ≤ a.getD i 0) := by
  have h := bsearchAux_spec (fun x => decide (x < v)) a
    (fun i j hij hj hp => by
      have hj' : a.getD j 0 < v := of_decide_eq_true hp
      exact decide_eq_true_eq.mpr (lt_of_le_of_lt (sorted_getD_mono hs hij hj) hj'))
    (a.length + 1) 0 a.length (by omega) (Nat.zero_le _) (le_refl _)
    (fun i hi => absurd hi (Nat.not_lt_zero i))
    (fun i hi hi' => absurd (lt_of_le_of_lt hi hi') (lt_irrefl _))
  refine ⟨h.1, fun i hi => of_decide_eq_true (h.2.1 i hi), fun i hi hi' => ?_⟩
  have := h.2.2 i hi hi'
  have : ¬ a.getD i 0 < v := of_decide_eq_false this
  omega

theorem searchsorted_right_spec (a : List Int) (v : Int)
    (hs : List.Sorted (· ≤ ·) a) :
    searchsorted_right a v ≤ a.length
    ∧ (∀ i, i < searchsorted_right a v → a.getD i 0 ≤ v)
    ∧ (∀ i, searchsorted_right a v ≤ i → i < a.length → v < a.getD i 0) := by
  have h := bsearchAux_spec (fun x => decide (x ≤ v)) a
    (fun i j hij hj hp => by
      have hj' : a.getD j 0 ≤ v := of_decide_eq_true hp
      exact decide_eq_true_eq.mpr (le_trans (sorted_getD_mono hs hij hj) hj'))
    (a.length + 1) 0 a.length (by omega) (Nat.zero_le _) (le_refl _)
    (fun i hi => absurd hi (Nat.not_lt_zero i))
    (fun i hi hi' => absurd (lt_of_le_of_lt hi hi') (lt_irrefl _))
  refine ⟨h.1, fun i hi => of_decide_eq_true (h.2.1 i hi), fun i hi hi' => ?_⟩
  have := h.2.2 i hi hi'
  have : ¬ a.getD i 0 ≤ v := of_decide_eq_false this
  omega

theorem drop_eq_filter_of_cut {α : Type} [Inhabited α] (q : α → Bool) :
    ∀ (l : List α) (r : Nat), r ≤ l.length →
      (∀ i, i < r → q (l.getD i default) = false) →
      (∀ i, r ≤ i → i < l.length → q (l.getD i default) = true) →
      l.drop r = l.filter q := by
  intro l
  induction l with
  | nil =>
    intro r hr _ _
    have : r = 0 := Nat.le_zero.mp hr
    subst this
    rfl
  | cons x t ih =>
    intro r hr hbef haft
    cases r with
    | zero =>
      have hx : q x = true := haft 0 (Nat.zero_le _) (Nat.succ_pos _)
      rw [List.drop_zero, List.filter_cons_of_pos hx]
      have ht := ih 0 (Nat.zero_le _) (fun i hi => absurd hi (Nat.not_lt_zero i))
        (fun i _ hi => haft (i + 1) (Nat.zero_le _)
          (Nat.succ_lt_succ hi))
      rw [List.drop_zero] at ht
      exact congrArg (x :: ·) ht
    | succ r' =>
      have hx : q x = false := hbef 0 (Nat.succ_pos _)
      rw [List.drop_succ_cons, List.filter_cons_of_neg (by simp [hx])]
      exact ih r' (Nat.le_of_succ_le_succ hr)
        (fun i hi => hbef (i + 1) (Nat.succ_lt_succ hi))
        (fun i hri hi => haft (i + 1) (Nat.succ_le_succ hri) (Nat.succ_lt_succ hi))

theorem take_eq_filter_of_cut {α : Type} [Inhabited α] (q : α → Bool) :
    ∀ (l : List α) (r : Nat), r ≤ l.length →
      (∀ i, i < r → q (l.getD i default) = true) →
      (∀ i, r ≤ i → i < l.length → q (l.getD i default) = false) →
      l.take r = l.filter q := by
  intro l
  induction l with
  | nil =>
    intro r hr _ _
    have : r = 0 := Nat.le_zero.mp hr
    subst this
    rfl
  | cons x t ih =>
    intro r hr hbef haft
    cases r with
    | zero =>
      have hx : q x = false := haft 0 (Nat.zero_le _) (Nat.succ_pos _)
      rw [List.take_zero, List.filter_cons_of_neg (by simp [hx])]
      have ht := ih 0 (Nat.zero_le _) (fun i hi => absurd hi (Nat.not_lt_zero i))
        (fun i _ hi => haft (i + 1) (Nat.zero_le _)
          (Nat.succ_lt_succ hi))
      rw [List.take_zero] at ht
      exact ht
    | succ r' =>
      have hx : q x = true := hbef 0 (Nat.succ_pos _)
      rw [List.take_succ_cons, List.filter_cons_of_pos hx]
      exact congrArg (x :: ·) (ih r' (Nat.le_of_succ_le_succ hr)
        (fun i hi => hbef (i + 1) (Nat.succ_lt_succ hi))
        (fun i hri hi => haft (i + 1) (Nat.succ_le_succ hri) (Nat.succ_lt_succ hi)))

theorem getD_map_row (f : Row → Int) :
    ∀ (l : List Row) (i : Nat), i < l.length →
      (l.map f).getD i 0 = f (l.getD i default) := by
  intro l
  induction l with
  | nil => intro i hi; cases hi
  | cons x t ih =>
    intro i hi
    cases i with
    | zero => rfl
    | succ i' =>
      simp only [List.map_cons, List.getD_cons_succ]
      exact ih i' (by simpa using hi)

theorem clampStart_start (s : Int) (r : Row) :
    (clampStart s r).start = max r.start s := by
  simp only [clampStart]
  split_ifs with h <;> simp <;> omega

theorem clampEnd_comp_clampStart (s e : Int) (r : Row) :
    clampEnd e (clampStart s r)
      = { r with start := max r.start s, «end» := min r.«end» e } := by
  simp only [clampStart, clampEnd]
  split_ifs with h1 h2 h2 <;> simp_all [Row.mk.injEq] <;> omega

theorem filter_of_map {α β : Type} (f : α → β) (p : β → Bool) :
    ∀ l : List α, (l.map f).filter p = (l.filter (fun a => p (f a))).map f := by
  intro l
  induction l with
  | nil => rfl
  | cons x t ih =>
    simp only [List.map_cons, List.filter_cons]
    by_cases h : p (f x) = true
    · rw [if_pos h, if_pos h, List.map_cons, ih]
    · rw [if_neg h, if_neg h, ih]

theorem sorted_map_filter (f : Row → Int) (q : Row → Bool) (tb : List Row)
    (h : List.Sorted (· ≤ ·) (tb.map f)) :
    List.Sorted (· ≤ ·) ((tb.filter q).map f) :=
  List.Pairwise.sublist (List.Sublist.map f (List.filter_sublist tb)) h

theorem sorted_map_max (s : Int) (L : List Int) (h : List.Sorted (· ≤ ·) L) :
    List.Sorted (· ≤ ·) (L.map (fun x => max x s)) :=
  List.Pairwise.map _ (fun _ _ hab => max_le_max hab (le_refl s)) h

/-- `in_range` with truthy bounds and `trim=False` on a table whose
chromosome rows have sorted starts and sorted ends: exactly the fully
contained intervals. -/
theorem in_range_notrim_eq (rows : List Row) (chrom : String) (s e : Int)
    (hstart : List.Sorted (· ≤ ·)
      ((rows.filter (fun r => r.chromosome == chrom)).map Row.start))
    (hend : List.Sorted (· ≤ ·)
      ((rows.filter (fun r => r.chromosome == chrom)).map Row.«end»))
    (hs : s ≠ 0) (he : e ≠ 0) :
    in_range rows chrom s (some e) false
      = (rows.filter (fun r => r.chromosome == chrom)).filter
          (fun r => decide (s ≤ r.start ∧ r.«end» ≤ e)) := by
  have htr : truthy (some e) = true := by simp [truthy, he]
  simp only [in_range, if_pos hs, Bool.false_eq_true, if_false, htr, if_true,
    Option.getD_some]
  set tb := rows.filter (fun r => r.chromosome == chrom) with htb
  have hL := searchsorted_left_spec (tb.map Row.start) s hstart
  have hlen1 : searchsorted_left (tb.map Row.start) s ≤ tb.length := by
    simpa using hL.1
  have hdrop : tb.drop (searchsorted_left (tb.map Row.start) s)
      = tb.filter (fun r => decide (s ≤ r.start)) := by
    apply drop_eq_filter_of_cut
    · exact hlen1
    · intro i hi
      have hilen : i < tb.length := lt_of_lt_of_le hi hlen1
      have hv := hL.2.1 i hi
      rw [getD_map_row Row.start tb i hilen] at hv
      simpa using hv
    · intro i hri hilen
      have hv := hL.2.2 i hri (by simpa using hilen)
      rw [getD_map_row Row.start tb i hilen] at hv
      simpa using hv
  rw [hdrop]
  set t1 := tb.filter (fun r => decide (s ≤ r.start)) with ht1
  have hend1 : List.Sorted (· ≤ ·) (t1.map Row.«end») :=
    sorted_map_filter Row.«end» _ tb hend
  have hR := searchsorted_right_spec (t1.map Row.«end») e hend1
  have hlen2 : searchsorted_right (t1.map Row.«end») e ≤ t1.length := by
    simpa using hR.1
  have htake : t1.take (searchsorted_right (t1.map Row.«end») e)
      = t1.filter (fun r => decide (r.«end» ≤ e)) := by
    apply take_eq_filter_of_cut
    · exact hlen2
    · intro i hi
      have hilen : i < t1.length := lt_of_lt_of_le hi hlen2
      have hv := hR.2.1 i hi
      rw [getD_map_row Row.«end» t1 i hilen] at hv
      simpa using hv
    · intro i hri hilen
      have hv := hR.2.2 i hri (by simpa using hilen)
      rw [getD_map_row Row.«end» t1 i hilen] at hv
      simpa using hv
  rw [htake, ht1, List.filter_filter]
  apply List.filter_congr
  intro r _
  simp [Bool.and_comm]

/-- `in_range` with truthy bounds `0 < s < e` and `trim=True` on a table
whose chromosome rows have sorted starts and sorted ends: exactly the
overlapping intervals, with endpoints clamped into the query range. -/
theorem in_range_trim_eq (rows : List Row) (chrom : String) (s e : Int)
    (hstart : List.Sorted (· ≤ ·)
      ((rows.filter (fun r => r.chromosome == chrom)).map Row.start))
    (hend : List.Sorted (· ≤ ·)
      ((rows.filter (fun r => r.chromosome == chrom)).map Row.«end»))
    (hs : s ≠ 0) (he : e ≠ 0) (hse : s < e) :
    in_range rows chrom s (some e) true
      = ((rows.filter (fun r => r.chromosome == chrom)).filter
          (fun r => decide (s < r.«end» ∧ r.start < e))).map
          (fun r => { r with start := max r.start s, «end» := min r.«end» e }) := by
  have htr : truthy (some e) = true := by simp [truthy, he]
  simp only [in_range, if_pos hs, if_true, htr, Option.getD_some]
  set tb := rows.filter (fun r => r.chromosome == chrom) with htb
  have hR := searchsorted_right_spec (tb.map Row.«end») s hend
  have hlen1 : searchsorted_right (tb.map Row.«end») s ≤ tb.length := by
    simpa using hR.1
  have hdrop : tb.drop (searchsorted_right (tb.map Row.«end») s)
      = tb.filter (fun r => decide (s < r.«end»)) := by
    apply drop_eq_filter_of_cut
    · exact hlen1
    · intro i hi
      have hilen : i < tb.length := lt_of_lt_of_le hi hlen1
      have hv := hR.2.1 i hi
      rw [getD_map_row Row.«end» tb i hilen] at hv
      simpa using hv
    · intro i hri hilen
      have hv := hR.2.2 i hri (by simpa using hilen)
      rw [getD_map_row Row.«end» tb i hilen] at hv
      simpa using hv
  rw [hdrop]
  set te := tb.filter (fun r => decide (s < r.«end»)) with hte
  set t1 := te.map (clampStart s) with ht1
  have hmapstart : t1.map Row.start = (te.map Row.start).map (fun x => max x s) := by
    rw [ht1, List.map_map, List.map_map]
    apply List.map_congr_left
    intro r _
    exact clampStart_start s r
  have hsorted1 : List.Sorted (· ≤ ·) (t1.map Row.start) := by
    rw [hmapstart]
    exact sorted_map_max s _ (sorted_map_filter Row.start _ tb hstart)
  have hL := searchsorted_left_spec (t1.map Row.start) e hsorted1
  have hlen2 : searchsorted_left (t1.map Row.start) e ≤ t1.length := by
    simpa using hL.1
  have htake : t1.take (searchsorted_left (t1.map Row.start) e)
      = t1.filter (fun r => decide (r.start < e)) := by
    apply take_eq_filter_of_cut
    · exact hlen2
    · intro i hi
      have hilen : i < t1.length := lt_of_lt_of_le hi hlen2
      have hv := hL.2.1 i hi
      rw [getD_map_row Row.start t1 i hilen] at hv
      simpa using hv
    · intro i hri hilen
      have hv := hL.2.2 i hri (by simpa using hilen)
      rw [getD_map_row Row.start t1 i hilen] at hv
      simpa using hv
  rw [htake, ht1, filter_of_map]
  have hcond : te.filter (fun a => decide ((clampStart s a).start < e))
      = te.filter (fun r => decide (r.start < e)) := by
    apply List.filter_congr
    intro r _
    rw [clampStart_start]
    have : (max r.start s < e) ↔ (r.start < e) := by
      constructor <;> intro h <;> omega
    simp [this]
  rw [hcond, hte, List.filter_filter, List.map_map]
  have hfun : (clampEnd e ∘ clampStart s)
      = (fun r => { r with start := max r.start s, «end» := min r.«end» e }) := by
    funext r
    exact clampEnd_comp_clampStart s e r
  rw [hfun]
  apply congrArg
  apply List.filter_congr
  intro r _
  simp [Bool.and_comm]

/-- Claim C3 amended: the characterization of `in_range` holds on sorted
tables whose per-chromosome *end* column is also nondecreasing (no nested
intervals — the binary search over ends requires it), for truthy bounds
`0 < start < end`: with `trim=False` exactly the intervals with
`start ≤ I.start` and `I.end ≤ end`, and with `trim=True` exactly the
intervals with `I.end > start` and `I.start < end`, their endpoints
clamped into the query range. -/
theorem c3_in_range_amended (rows : List Row) (chrom : String) (s e : Int)
    (hstart : List.Sorted (· ≤ ·)
      ((rows.filter (fun r => r.chromosome == chrom)).map Row.start))
    (hend : List.Sorted (· ≤ ·)
      ((rows.filter (fun r => r.chromosome == chrom)).map Row.«end»))
    (hs : 0 < s) (he : 0 < e) (hse : s < e) :
    in_range rows chrom s (some e) false
      = (rows.filter (fun r => r.chromosome == chrom)).filter
          (fun r => decide (s ≤ r.start ∧ r.«end» ≤ e))
    ∧ in_range rows chrom s (some e) true
      = ((rows.filter (fun r => r.chromosome == chrom)).filter
          (fun r => decide (s < r.«end» ∧ r.start < e))).map
          (fun r => { r with start := max r.start s, «end» := min r.«end» e }) :=
  ⟨in_range_notrim_eq rows chrom s e hstart hend (by omega) (by omega),
   in_range_trim_eq rows chrom s e hstart hend (by omega) (by omega) hse⟩

/-- Witness for C3 on a concrete sorted three-row table with query range
[8, 35): `trim=False` keeps only the contained row (10,20); `trim=True`
keeps the overlapping rows (10,20) and (30,40), clamping the latter to
(30,35). -/
theorem c3_in_range_amended_witness :
    List.Sorted (· ≤ ·)
        (([({chromosome := "chr1", start := 0, «end» := 5} : Row),
          {chromosome := "chr1", start := 10, «end» := 20},
          {chromosome := "chr1", start := 30, «end» := 40}].filter
            (fun r => r.chromosome == "chr1")).map Row.start)
    ∧ ((0 : Int) < 8 ∧ (0 : Int) < 35 ∧ (8 : Int) < 35)
    ∧ in_range [({chromosome := "chr1", start := 0, «end» := 5} : Row),
          {chromosome := "chr1", start := 10, «end» := 20},
          {chromosome := "chr1", start := 30, «end» := 40}] "chr1" 8 (some 35) false
        = ([({chromosome := "chr1", start := 0, «end» := 5} : Row),
          {chromosome := "chr1", start := 10, «end» := 20},
          {chromosome := "chr1", start := 30, «end» := 40}].filter
            (fun r => r.chromosome == "chr1")).filter
            (fun r => decide (8 ≤ r.start ∧ r.«end» ≤ 35))
    ∧ in_range [({chromosome := "chr1", start := 0, «end» := 5} : Row),
          {chromosome := "chr1", start := 10, «end» := 20},
          {chromosome := "chr1", start := 30, «end» := 40}] "chr1" 8 (some 35) true
        = (([({chromosome := "chr1", start := 0, «end» := 5} : Row),
          {chromosome := "chr1", start := 10, «end» := 20},
          {chromosome := "chr1", start := 30, «end» := 40}].filter
            (fun r => r.chromosome == "chr1")).filter
            (fun r => decide (8 < r.«end» ∧ r.start < 35))).map
            (fun r => { r with start := max r.start 8, «end» := min r.«end» 35 }) := by
  have h := c3_in_range_amended [({chromosome := "chr1", start := 0, «end» := 5} : Row),
      {chromosome := "chr1", start := 10, «end» := 20},
      {chromosome := "chr1", start := 30, «end» := 40}] "chr1" 8 35
    (by decide) (by decide) (by decide) (by decide) (by decide)
  exact ⟨by decide, ⟨by decide, by decide, by decide⟩, h.1, h.2⟩

/-! ## Sweep invariants: non-overlap of emitted background intervals (C2) -/

/-- The emitted intervals lie chained between `lo` and `hi`: the first
starts at or after `lo`, each next one starts at or after the previous
end, and the last ends at or before `hi`. -/
def ChainedIn : Int → List Iv → Int → Prop
  | lo, [], hi => lo ≤ hi
  | lo, p :: rest, hi => lo ≤ p.1 ∧ ChainedIn p.2 rest hi

theorem ChainedIn.mono_lo {lo lo' hi : Int} {em : List Iv}
    (h : lo' ≤ lo) (hc : ChainedIn lo em hi) : ChainedIn lo' em hi := by
  cases em with
  | nil => exact le_trans h hc
  | cons p rest => exact ⟨le_trans h hc.1, hc.2⟩

theorem ChainedIn.mono_hi {lo hi hi' : Int} {em : List Iv}
    (hc : ChainedIn lo em hi) (h : hi ≤ hi') : ChainedIn lo em hi' := by
  induction em generalizing lo with
  | nil => exact le_trans hc h
  | cons p rest ih => exact ⟨hc.1, ih hc.2⟩

theorem ChainedIn.le {lo hi : Int} {em : List Iv}
    (hc : ChainedIn lo em hi) (hpos : ∀ p ∈ em, p.1 < p.2) : lo ≤ hi := by
  induction em generalizing lo with
  | nil => exact hc
  | cons p rest ih =>
    have h1 : lo ≤ p.1 := hc.1
    have h2 : p.2 ≤ hi := ih hc.2 (fun q hq => hpos q (List.mem_cons_of_mem p hq))
    have := hpos p (List.mem_cons_self p rest)
    omega

theorem ChainedIn.start_ge {lo hi : Int} {em : List Iv}
    (hc : ChainedIn lo em hi) (hpos : ∀ p ∈ em, p.1 < p.2) :
    ∀ p ∈ em, lo ≤ p.1 := by
  induction em generalizing lo with
  | nil => intro p hp; cases hp
  | cons q rest ih =>
    intro p hp
    rcases List.mem_cons.mp hp with h | h
    · exact h ▸ hc.1
    · have h1 : lo ≤ q.1 := hc.1
      have hq := hpos q (List.mem_cons_self q rest)
      have := ih hc.2 (fun x hx => hpos x (List.mem_cons_of_mem q hx)) p h
      omega

theorem ChainedIn.end_le {lo hi : Int} {em : List Iv}
    (hc : ChainedIn lo em hi) (hpos : ∀ p ∈ em, p.1 < p.2) :
    ∀ p ∈ em, p.2 ≤ hi := by
  induction em generalizing lo with
  | nil => intro p hp; cases hp
  | cons q rest ih =>
    intro p hp
    rcases List.mem_cons.mp hp with h | h
    · subst h
      exact ChainedIn.le hc.2 (fun x hx => hpos x (List.mem_cons_of_mem p hx))
    · exact ih hc.2 (fun x hx => hpos x (List.mem_cons_of_mem q hx)) p h

theorem ChainedIn.append {lo m hi : Int} {em1 em2 : List Iv}
    (h1 : ChainedIn lo em1 m) (h2 : ChainedIn m em2 hi) :
    ChainedIn lo (em1 ++ em2) hi := by
  induction em1 generalizing lo with
  | nil => exact ChainedIn.mono_lo h1 h2
  | cons p rest ih => exact ⟨h1.1, ih h1.2⟩

theorem ChainedIn.pairwise {lo hi : Int} {em : List Iv}
    (hc : ChainedIn lo em hi) (hpos : ∀ p ∈ em, p.1 < p.2) :
    List.Pairwise (fun a b : Iv => a.2 ≤ b.1) em := by
  induction em generalizing lo with
  | nil => exact List.Pairwise.nil
  | cons p rest ih =>
    refine List.Pairwise.cons ?_
      (ih hc.2 (fun x hx => hpos x (List.mem_cons_of_mem p hx)))
    intro b hb
    exact ChainedIn.start_ge hc.2
      (fun x hx => hpos x (List.mem_cons_of_mem p hx)) b hb

/-- The target sequence still to be processed: current cursor plus the
rest of the iterator. -/
def tgtSeq : Option Iv → List Iv → List Iv
  | none, r => r
  | some t, r => t :: r

/-- Reachable states of the target cursor: an exhausted cursor has an
empty remainder, the pending targets are sorted and non-overlapping, and
every pending target is non-degenerate. -/
def StateOK (cur : Option Iv) (rest : List Iv) : Prop :=
  (cur = none → rest = [])
  ∧ List.Chain' (fun a b : Iv => a.2 ≤ b.1) (tgtSeq cur rest)
  ∧ ∀ t ∈ tgtSeq cur rest, t.1 < t.2

theorem chain_blocks {x : Iv} {l : List Iv}
    (hc : List.Chain' (fun a b : Iv => a.2 ≤ b.1) (x :: l))
    (hp : ∀ p ∈ x :: l, p.1 ≤ p.2) :
    ∀ y ∈ l, x.2 ≤ y.1 := by
  induction l generalizing x with
  | nil => intro y hy; cases hy
  | cons z l' ih =>
    intro y hy
    have hxz : x.2 ≤ z.1 := (List.chain'_cons.mp hc).1
    rcases List.mem_cons.mp hy with h | h
    · exact h ▸ hxz
    · have hz := hp z (List.mem_cons_of_mem x (List.mem_cons_self z l'))
      have := ih (List.chain'_cons.mp hc).2
        (fun p hp' => hp p (List.mem_cons_of_mem x hp')) y h
      omega

/-- Facts about processing one target `(ts, te)` inside the loop: the
moving `bg_start` never decreases, ends up at or beyond `te + pad`, and
the at-most-one emitted interval is `(bg, ts - pad)`, positive, chained
and bounded by `ae - pad`. -/
theorem step_facts (pad ae ts te bg : Int) (hpad : 0 ≤ pad) (hste : ts < te)
    (hts : ts < ae) :
    bg ≤ (if te + pad > bg then te + pad else bg)
    ∧ te + pad ≤ (if te + pad > bg then te + pad else bg)
    ∧ ChainedIn bg
        (if te + pad > bg then (if ts - pad > bg then [((bg : Int), ts - pad)] else [])
          else [])
        (if te + pad > bg then te + pad else bg)
    ∧ ∀ p ∈ (if te + pad > bg then
          (if ts - pad > bg then [((bg : Int), ts - pad)] else []) else []),
        p.1 = bg ∧ p.2 = ts - pad ∧ p.1 < p.2 ∧ p.2 ≤ ae - pad := by
  by_cases h1 : te + pad > bg
  · by_cases h2 : ts - pad > bg
    · simp only [if_pos h1, if_pos h2]
      refine ⟨by omega, by omega, ⟨le_refl _, ?_⟩, ?_⟩
      · exact (by omega : ts - pad ≤ te + pad)
      · intro p hp
        rw [List.mem_singleton] at hp
        subst hp
        exact ⟨rfl, rfl, by omega, by omega⟩
    · simp only [if_pos h1, if_neg h2]
      exact ⟨by omega, by omega, (by omega : bg ≤ te + pad),
        fun p hp => absurd hp (List.not_mem_nil p)⟩
  · simp only [if_neg h1]
    exact ⟨le_refl bg, by omega, (le_refl bg : bg ≤ bg),
      fun p hp => absurd hp (List.not_mem_nil p)⟩

/-- Full invariant of the inner sweep loop: given a well-formed target
state and `0 ≤ pad`, the loop only moves `bg_start` forward, emits a
chain of positive intervals between the initial and final `bg_start`, all
ending by `ae - pad`; the state stays well-formed, consumed targets
started before `ae` and are covered (padded) by the final `bg_start`,
unconsumed targets start at or after `ae`, and no emission overlaps any
padded pending target. -/
theorem sweepLoop_spec (pad ae : Int) (hpad : 0 ≤ pad) :
    ∀ (rest : List Iv) (cur : Option Iv) (bg : Int)
      (em : List Iv) (cur' : Option Iv) (rest' : List Iv) (bg' : Int),
      StateOK cur rest →
      sweepLoop pad ae cur rest bg = (em, cur', rest', bg') →
      bg ≤ bg'
      ∧ ChainedIn bg em bg'
      ∧ (∀ p ∈ em, p.1 < p.2 ∧ p.2 ≤ ae - pad)
      ∧ StateOK cur' rest'
      ∧ (∀ t ∈ tgtSeq cur rest, t ∉ tgtSeq cur' rest' → t.1 < ae ∧ t.2 + pad ≤ bg')
      ∧ (∀ t ∈ tgtSeq cur' rest', t ∈ tgtSeq cur rest ∧ ae ≤ t.1)
      ∧ (∀ o ∈ em, ∀ t ∈ tgtSeq cur rest, o.2 ≤ t.1 - pad ∨ t.2 + pad ≤ o.1) := by
  intro rest
  induction rest with
  | nil =>
    intro cur bg em cur' rest' bg' hok heq
    match cur with
    | none =>
      simp only [sweepLoop, Prod.mk.injEq] at heq
      obtain ⟨rfl, rfl, rfl, rfl⟩ := heq
      refine ⟨le_refl bg, le_refl bg, ?_, ?_, ?_, ?_, ?_⟩
      · intro p hp; cases hp
      · exact ⟨fun _ => rfl, List.chain'_nil, fun t ht => by cases ht⟩
      · intro t ht; cases ht
      · intro t ht; cases ht
      · intro o ho; cases ho
    | some tgt =>
      obtain ⟨ts, te⟩ := tgt
      have hste : ts < te := hok.2.2 (ts, te) (List.mem_cons_self _ _)
      by_cases hts : ts < ae
      · simp only [sweepLoop, if_pos hts, Prod.mk.injEq] at heq
        obtain ⟨rfl, rfl, rfl, rfl⟩ := heq
        obtain ⟨hf1, hf2, hf3, hf4⟩ := step_facts pad ae ts te bg hpad hste hts
        refine ⟨hf1, hf3, ?_, ?_, ?_, ?_, ?_⟩
        · intro p hp
          obtain ⟨-, -, h3, h4⟩ := hf4 p hp
          exact ⟨h3, h4⟩
        · exact ⟨fun _ => rfl, List.chain'_nil, fun t ht => by cases ht⟩
        · intro t ht _
          have : t = (ts, te) := by
            rcases List.mem_cons.mp ht with h | h
            · exact h
            · cases h
          subst this
          exact ⟨hts, hf2⟩
        · intro t ht; cases ht
        · intro o ho t ht
          obtain ⟨h1, h2, -, -⟩ := hf4 o ho
          have : t = (ts, te) := by
            rcases List.mem_cons.mp ht with h | h
            · exact h
            · cases h
          subst this
          left
          omega
      · simp only [sweepLoop, if_neg hts, Prod.mk.injEq] at heq
        obtain ⟨rfl, rfl, rfl, rfl⟩ := heq
        refine ⟨le_refl bg, le_refl bg, ?_, hok, ?_, ?_, ?_⟩
        · intro p hp; cases hp
        · intro t ht hnt; exact absurd ht hnt
        · intro t ht
          refine ⟨ht, ?_⟩
          rcases List.mem_cons.mp ht with h | h
          · subst h; omega
          · cases h
        · intro o ho; cases ho
  | cons t r ih =>
    intro cur bg em cur' rest' bg' hok heq
    match cur with
    | none =>
      exact absurd (hok.1 rfl) (List.cons_ne_nil t r)
    | some tgt =>
      obtain ⟨ts, te⟩ := tgt
      have hste : ts < te := hok.2.2 (ts, te) (List.mem_cons_self _ _)
      have hchain : List.Chain' (fun a b : Iv => a.2 ≤ b.1) ((ts, te) :: t :: r) :=
        hok.2.1
      have hok' : StateOK (some t) r :=
        ⟨fun h => absurd h (Option.some_ne_none t),
         (List.chain'_cons.mp hchain).2,
         fun x hx => hok.2.2 x (List.mem_cons_of_mem _ hx)⟩
      by_cases hts : ts < ae
      · rcases hC : sweepLoop pad ae (some t) r (if te + pad > bg then te + pad else bg)
          with ⟨emL, curL, restL, bgL⟩
        simp only [sweepLoop, if_pos hts, hC, Prod.mk.injEq] at heq
        obtain ⟨rfl, rfl, rfl, rfl⟩ := heq
        obtain ⟨hf1, hf2, hf3, hf4⟩ := step_facts pad ae ts te bg hpad hste hts
        obtain ⟨ih1, ih2, ih3, ih4, ih5, ih6, ih7⟩ :=
          ih (some t) (if te + pad > bg then te + pad else bg) emL curL restL bgL hok' hC
        have hbgbg' : bg ≤ bgL := le_trans hf1 ih1
        have hRstart : ∀ o ∈ emL, (if te + pad > bg then te + pad else bg) ≤ o.1 := by
          intro o ho
          exact ChainedIn.start_ge ih2 (fun p hp => (ih3 p hp).1) o ho
        refine ⟨hbgbg', ChainedIn.append hf3 ih2, ?_, ih4, ?_, ?_, ?_⟩
        · intro p hp
          rcases List.mem_append.mp hp with h | h
          · obtain ⟨-, -, h3, h4⟩ := hf4 p h
            exact ⟨h3, h4⟩
          · exact ih3 p h
        · intro x hx hnx
          rcases List.mem_cons.mp hx with h | h
          · subst h
            exact ⟨hts, le_trans hf2 ih1⟩
          · exact ih5 x h hnx
        · intro x hx
          obtain ⟨h1, h2⟩ := ih6 x hx
          exact ⟨List.mem_cons_of_mem _ h1, h2⟩
        · intro o ho x hx
          rcases List.mem_append.mp ho with h | h
          · obtain ⟨ho1, ho2, -, -⟩ := hf4 o h
            rcases List.mem_cons.mp hx with hxx | hxx
            · subst hxx
              left
              omega
            · left
              have hle : te ≤ x.1 := chain_blocks hchain
                (fun p hp => le_of_lt (hok.2.2 p hp)) x hxx
              omega
          · rcases List.mem_cons.mp hx with hxx | hxx
            · subst hxx
              right
              exact le_trans hf2 (hRstart o h)
            · exact ih7 o h x hxx
      · simp only [sweepLoop, if_neg hts, Prod.mk.injEq] at heq
        obtain ⟨rfl, rfl, rfl, rfl⟩ := heq
        refine ⟨le_refl bg, le_refl bg, ?_, hok, ?_, ?_, ?_⟩
        · intro p hp; cases hp
        · intro x hx hnx; exact absurd hx hnx
        · intro x hx
          refine ⟨hx, ?_⟩
          rcases List.mem_cons.mp hx with h | h
          · subst h; omega
          · have hle : te ≤ x.1 := chain_blocks hchain
              (fun p hp => le_of_lt (hok.2.2 p hp)) x h
            omega
        · intro o ho; cases ho

/-- Invariant of one accessible-interval iteration: the emitted intervals
form a positive chain inside `[acc.1 + pad, acc.2 - pad]`, the target
state stays well-formed and only consumes targets starting before
`acc.2`, and no emission overlaps any padded target that was pending when
the iteration began. -/
theorem sweepAcc_spec (pad : Int) (hpad : 0 ≤ pad) (cur : Option Iv)
    (rest : List Iv) (acc : Iv) (em : List Iv) (cur' : Option Iv)
    (rest' : List Iv) (hok : StateOK cur rest)
    (heq : sweepAcc pad (cur, rest) acc = (em, cur', rest')) :
    List.Chain' (fun a b : Iv => a.2 ≤ b.1) em
    ∧ (∀ o ∈ em, o.1 < o.2 ∧ acc.1 + pad ≤ o.1 ∧ o.2 ≤ acc.2 - pad)
    ∧ StateOK cur' rest'
    ∧ (∀ t ∈ tgtSeq cur rest, t ∉ tgtSeq cur' rest' → t.1 < acc.2)
    ∧ (∀ t ∈ tgtSeq cur' rest', t ∈ tgtSeq cur rest)
    ∧ (∀ o ∈ em, ∀ t ∈ tgtSeq cur rest, o.2 ≤ t.1 - pad ∨ t.2 + pad ≤ o.1) := by
  by_cases hskip : acc.2 - acc.1 ≤ 2 * pad
  · simp only [sweepAcc, if_pos hskip, Prod.mk.injEq] at heq
    obtain ⟨rfl, rfl, rfl⟩ := heq
    refine ⟨List.chain'_nil, ?_, hok, ?_, fun t ht => ht, ?_⟩
    · intro o ho; cases ho
    · intro t ht hnt; exact absurd ht hnt
    · intro o ho; cases ho
  · rcases hC : sweepLoop pad acc.2 cur rest (acc.1 + pad)
      with ⟨emL, curL, restL, bgL⟩
    obtain ⟨l1, l2, l3, l4, l5, l6, l7⟩ :=
      sweepLoop_spec pad acc.2 hpad rest cur (acc.1 + pad) emL curL restL bgL hok hC
    have hposL : ∀ p ∈ emL, p.1 < p.2 := fun p hp => (l3 p hp).1
    have hstartL : ∀ o ∈ emL, acc.1 + pad ≤ o.1 :=
      ChainedIn.start_ge l2 hposL
    by_cases htail : acc.2 - pad - bgL > 0
    · simp only [sweepAcc, if_neg hskip, hC, if_pos htail, Prod.mk.injEq] at heq
      obtain ⟨rfl, rfl, rfl⟩ := heq
      have hch : ChainedIn (acc.1 + pad) (emL ++ [(bgL, acc.2 - pad)])
          (acc.2 - pad) :=
        ChainedIn.append l2 ⟨le_refl bgL, le_refl (acc.2 - pad)⟩
      have hpos : ∀ p ∈ emL ++ [(bgL, acc.2 - pad)], p.1 < p.2 := by
        intro p hp
        rcases List.mem_append.mp hp with h | h
        · exact hposL p h
        · rw [List.mem_singleton] at h
          subst h
          omega
      refine ⟨List.Pairwise.chain' (ChainedIn.pairwise hch hpos), ?_, l4, ?_, ?_, ?_⟩
      · intro o ho
        rcases List.mem_append.mp ho with h | h
        · exact ⟨hposL o h, hstartL o h, (l3 o h).2⟩
        · rw [List.mem_singleton] at h
          subst h
          exact ⟨by omega, by simpa using l1, le_refl _⟩
      · intro t ht hnt
        exact (l5 t ht hnt).1
      · intro t ht
        exact (l6 t ht).1
      · intro o ho t ht
        rcases List.mem_append.mp ho with h | h
        · exact l7 o h t ht
        · rw [List.mem_singleton] at h
          subst h
          by_cases hmem : t ∈ tgtSeq curL restL
          · left
            have := (l6 t hmem).2
            simp only
            omega
          · right
            have := (l5 t ht hmem).2
            simpa using this
    · simp only [sweepAcc, if_neg hskip, hC, if_neg htail, List.append_nil,
        Prod.mk.injEq] at heq
      obtain ⟨rfl, rfl, rfl⟩ := heq
      refine ⟨List.Pairwise.chain' (ChainedIn.pairwise l2 hposL), ?_, l4, ?_, ?_, ?_⟩
      · intro o ho
        exact ⟨hposL o ho, hstartL o ho, (l3 o ho).2⟩
      · intro t ht hnt
        exact (l5 t ht hnt).1
      · intro t ht
        exact (l6 t ht).1
      · exact l7

theorem mem_of_getLast?_mem {α : Type} {l : List α} {x : α}
    (h : x ∈ l.getLast?) : x ∈ l := by
  obtain ⟨hne, rfl⟩ := List.mem_getLast?_eq_getLast h
  exact List.getLast_mem hne

/-- Invariant of the whole accessible loop, relative to the full target
list `TL`: with disjoint ascending well-formed accessible intervals,
`0 ≤ pad`, a well-formed target state drawn from `TL`, every
already-consumed target ending before every remaining accessible start,
and every pending target either contained in a remaining accessible
interval or ending before all of them — the emitted intervals form a
positive chain, each lies within some accessible interval shrunk by
`pad`, and none overlaps any padded target of `TL`. -/
theorem sweepAccs_spec (pad : Int) (hpad : 0 ≤ pad) (TL : List Iv) :
    ∀ (A : List Iv) (cur : Option Iv) (rest : List Iv),
      List.Chain' (fun a b : Iv => a.2 ≤ b.1) A →
      (∀ a ∈ A, a.1 ≤ a.2) →
      StateOK cur rest →
      (∀ t ∈ tgtSeq cur rest, t ∈ TL) →
      (∀ t ∈ TL, t ∉ tgtSeq cur rest → ∀ a ∈ A, t.2 ≤ a.1) →
      (∀ t ∈ tgtSeq cur rest,
        (∃ a ∈ A, a.1 ≤ t.1 ∧ t.2 ≤ a.2) ∨ ∀ a ∈ A, t.2 ≤ a.1) →
      List.Chain' (fun a b : Iv => a.2 ≤ b.1) (sweepAccs pad (cur, rest) A)
      ∧ (∀ o ∈ sweepAccs pad (cur, rest) A,
          o.1 < o.2 ∧ ∃ a ∈ A, a.1 + pad ≤ o.1 ∧ o.2 ≤ a.2 - pad)
      ∧ (∀ o ∈ sweepAccs pad (cur, rest) A, ∀ t ∈ TL,
          o.2 ≤ t.1 - pad ∨ t.2 + pad ≤ o.1) := by
  intro A
  induction A with
  | nil =>
    intro cur rest _ _ _ _ _ _
    refine ⟨List.chain'_nil, ?_, ?_⟩
    · intro o ho; cases ho
    · intro o ho; cases ho
  | cons a A' ihA =>
    intro cur rest hAc hwf hok hsub hCC hII
    rcases hA : sweepAcc pad (cur, rest) a with ⟨em0, cur1, rest1⟩
    obtain ⟨a1, a2, a3, a4, a5, a6⟩ :=
      sweepAcc_spec pad hpad cur rest a em0 cur1 rest1 hok hA
    have hout : sweepAccs pad (cur, rest) (a :: A')
        = em0 ++ sweepAccs pad (cur1, rest1) A' := by
      simp only [sweepAccs, hA]
    have hblocks : ∀ b ∈ A', a.2 ≤ b.1 := chain_blocks hAc hwf
    have hCC' : ∀ t ∈ TL, t ∉ tgtSeq cur1 rest1 → ∀ b ∈ A', t.2 ≤ b.1 := by
      intro t htTL hnot
      by_cases hmem : t ∈ tgtSeq cur rest
      · have ht1 : t.1 < a.2 := a4 t hmem hnot
        rcases hII t hmem with ⟨b, hb, hb1, hb2⟩ | hleft
        · rcases List.mem_cons.mp hb with hba | hbA'
          · subst hba
            intro a' ha'
            have := hblocks a' ha'
            omega
          · intro a' ha'
            have h1 := hblocks b hbA'
            have h2 := hblocks a' ha'
            omega
        · intro a' ha'
          exact hleft a' (List.mem_cons_of_mem a ha')
      · intro a' ha'
        exact hCC t htTL hmem a' (List.mem_cons_of_mem a ha')
    have hII' : ∀ t ∈ tgtSeq cur1 rest1,
        (∃ b ∈ A', b.1 ≤ t.1 ∧ t.2 ≤ b.2) ∨ ∀ b ∈ A', t.2 ≤ b.1 := by
      intro t ht
      have htm : t ∈ tgtSeq cur rest := a5 t ht
      rcases hII t htm with ⟨b, hb, hb1, hb2⟩ | hleft
      · rcases List.mem_cons.mp hb with hba | hbA'
        · subst hba
          right
          intro a' ha'
          have := hblocks a' ha'
          omega
        · exact Or.inl ⟨b, hbA', hb1, hb2⟩
      · right
        intro a' ha'
        exact hleft a' (List.mem_cons_of_mem a ha')
    obtain ⟨r1, r2, r3⟩ := ihA cur1 rest1 (List.Chain'.tail hAc)
      (fun b hb => hwf b (List.mem_cons_of_mem a hb)) a3
      (fun t ht => hsub t (a5 t ht)) hCC' hII'
    rw [hout]
    refine ⟨?_, ?_, ?_⟩
    · refine List.chain'_append.mpr ⟨a1, r1, ?_⟩
      intro x hx y hy
      have hxm : x ∈ em0 := mem_of_getLast?_mem hx
      have hym : y ∈ sweepAccs pad (cur1, rest1) A' := List.mem_of_mem_head? hy
      have hx2 : x.2 ≤ a.2 - pad := (a2 x hxm).2.2
      obtain ⟨-, b, hb, hb1, -⟩ := r2 y hym
      have := hblocks b hb
      omega
    · intro o ho
      rcases List.mem_append.mp ho with h | h
      · obtain ⟨h1, h2, h3⟩ := a2 o h
        exact ⟨h1, a, List.mem_cons_self a A', h2, h3⟩
      · obtain ⟨h1, b, hb, h2, h3⟩ := r2 o h
        exact ⟨h1, b, List.mem_cons_of_mem a hb, h2, h3⟩
    · intro o ho t ht
      rcases List.mem_append.mp ho with h | h
      · by_cases hmem : t ∈ tgtSeq cur rest
        · exact a6 o h t hmem
        · right
          have h1 := hCC t ht hmem a (List.mem_cons_self a A')
          have h2 := (a2 o h).2.1
          omega
      · exact r3 o h t ht

theorem chain'_pos_pairwise {l : List Iv}
    (hc : List.Chain' (fun a b : Iv => a.2 ≤ b.1) l)
    (hp : ∀ p ∈ l, p.1 < p.2) :
    List.Pairwise (fun a b : Iv => a.2 ≤ b.1) l := by
  induction l with
  | nil => exact List.Pairwise.nil
  | cons x t ih =>
    refine List.Pairwise.cons ?_
      (ih (List.Chain'.tail hc) (fun p hp' => hp p (List.mem_cons_of_mem x hp')))
    intro y hy
    exact chain_blocks hc (fun p hp' => le_of_lt (hp p hp')) y hy

/-- Counterexample to claim C2, in four parts, each a concrete run of
`find_background_regions` on one chromosome with sorted, non-overlapping,
non-degenerate targets.
(A) Accessible intervals in ascending start order (as the claim assumes)
but overlapping each other: the emissions overlap each other *and* a
padded target, because the target cursor is already exhausted when the
second accessible interval is swept.
(B) A negative `pad_size` with disjoint accessible intervals: emissions
from adjacent accessible intervals overlap.
(C) A target spanning an accessible-interval boundary (not contained in
any accessible interval), `pad = 0`: a later accessible interval emits
background inside the padded target.
(D) A degenerate accessible interval `(100, 50)` between two chained
ones: emissions overlap. -/
theorem c2_counterexample :
    (List.Chain' (fun a b : Iv => a.1 ≤ b.1)
        [((0 : Int), (10000 : Int)), ((5 : Int), (10000 : Int))]
      ∧ ¬ List.Pairwise (fun o o' : String × Int × Int =>
            o.2.2 ≤ o'.2.1 ∨ o'.2.2 ≤ o.2.1)
          (find_background_regions
            [("chr1", [((0 : Int), (10000 : Int)), ((5 : Int), (10000 : Int))])]
            [("chr1", [((1000 : Int), (2000 : Int))])] 200)
      ∧ ¬ (∀ o ∈ find_background_regions
              [("chr1", [((0 : Int), (10000 : Int)), ((5 : Int), (10000 : Int))])]
              [("chr1", [((1000 : Int), (2000 : Int))])] 200,
            ∀ t ∈ [((1000 : Int), (2000 : Int))],
              o.2.2 ≤ t.1 - 200 ∨ t.2 + 200 ≤ o.2.1))
    ∧ ¬ List.Pairwise (fun o o' : String × Int × Int =>
          o.2.2 ≤ o'.2.1 ∨ o'.2.2 ≤ o.2.1)
        (find_background_regions
          [("chr1", [((0 : Int), (1000 : Int)), ((1000 : Int), (2000 : Int))])]
          [("chr1", [((1500 : Int), (1600 : Int))])] (-100))
    ∧ ¬ (∀ o ∈ find_background_regions
            [("chr1", [((0 : Int), (1000 : Int)), ((1000 : Int), (2000 : Int))])]
            [("chr1", [((900 : Int), (5000 : Int))])] 0,
          ∀ t ∈ [((900 : Int), (5000 : Int))],
            o.2.2 ≤ t.1 - 0 ∨ t.2 + 0 ≤ o.2.1)
    ∧ ¬ List.Pairwise (fun o o' : String × Int × Int =>
          o.2.2 ≤ o'.2.1 ∨ o'.2.2 ≤ o.2.1)
        (find_background_regions
          [("chr1", [((0 : Int), (100 : Int)), ((100 : Int), (50 : Int)),
            ((50 : Int), (200 : Int))])]
          [("chr1", [((100 : Int), (150 : Int))])] 10) := by
  refine ⟨⟨List.chain'_cons.mpr ⟨by decide, List.chain'_singleton _⟩,
    by decide, by decide⟩, by decide, by decide, by decide⟩

/-- Claim C2 amended: for one chromosome, if additionally the accessible
intervals are pairwise non-overlapping in ascending order (each end at
most the next start) and non-degenerate, the padding is non-negative, and
every target is contained in some accessible interval, then the emitted
background intervals never overlap each other and never overlap any
target expanded by `pad_size` on both ends. -/
theorem c2_sweep_non_overlap_amended (c : String) (targets accs : List Iv)
    (pad : Int) (hpad : 0 ≤ pad)
    (htc : List.Chain' (fun a b : Iv => a.2 ≤ b.1) targets)
    (htp : ∀ t ∈ targets, t.1 < t.2)
    (hac : List.Chain' (fun a b : Iv => a.2 ≤ b.1) accs)
    (hap : ∀ a ∈ accs, a.1 ≤ a.2)
    (hcont : ∀ t ∈ targets, ∃ a ∈ accs, a.1 ≤ t.1 ∧ t.2 ≤ a.2) :
    List.Pairwise (fun o o' : String × Int × Int =>
        o.2.2 ≤ o'.2.1 ∨ o'.2.2 ≤ o.2.1)
      (find_background_regions [(c, accs)] [(c, targets)] pad)
    ∧ ∀ o ∈ find_background_regions [(c, accs)] [(c, targets)] pad,
        ∀ t ∈ targets, o.2.2 ≤ t.1 - pad ∨ t.2 + pad ≤ o.2.1 := by
  have hlook : lookupChrom c [(c, targets)] = some targets := by
    simp [lookupChrom]
  have hfbr : find_background_regions [(c, accs)] [(c, targets)] pad
      = (sweepChromTargets pad targets accs).map (fun se => (c, se.1, se.2)) := by
    simp [find_background_regions, hlook]
  rw [hfbr]
  match targets, htc, htp, hcont with
  | [], _, _, _ =>
    refine ⟨?_, ?_⟩
    · simp [sweepChromTargets]
    · intro o _ t ht; cases ht
  | t0 :: ts0, htc, htp, hcont =>
    have hok : StateOK (some t0) ts0 :=
      ⟨fun h => absurd h (Option.some_ne_none t0), htc, htp⟩
    obtain ⟨r1, r2, r3⟩ := sweepAccs_spec pad hpad (t0 :: ts0) accs (some t0) ts0
      hac hap hok (fun t ht => ht) (fun t ht hnt => absurd ht hnt)
      (fun t ht => Or.inl (hcont t ht))
    have hs : sweepChromTargets pad (t0 :: ts0) accs
        = sweepAccs pad (some t0, ts0) accs := rfl
    rw [hs]
    constructor
    · have hpw : List.Pairwise (fun a b : Iv => a.2 ≤ b.1)
          (sweepAccs pad (some t0, ts0) accs) :=
        chain'_pos_pairwise r1 (fun p hp => (r2 p hp).1)
      exact List.Pairwise.map _ (fun a b hab => Or.inl hab) hpw
    · intro o ho t ht
      obtain ⟨se, hse, hfo⟩ := List.mem_map.mp ho
      subst hfo
      exact r3 se hse t ht

/-- Witness for C2 at the spec's end-to-end instance: one target
(1000, 2000) inside accessible (0, 10000) with pad 200. -/
theorem c2_sweep_non_overlap_amended_witness :
    ((0 : Int) ≤ 200
      ∧ List.Chain' (fun a b : Iv => a.2 ≤ b.1) [((1000 : Int), (2000 : Int))]
      ∧ (∀ t ∈ [((1000 : Int), (2000 : Int))], t.1 < t.2)
      ∧ List.Chain' (fun a b : Iv => a.2 ≤ b.1) [((0 : Int), (10000 : Int))]
      ∧ (∀ a ∈ [((0 : Int), (10000 : Int))], a.1 ≤ a.2)
      ∧ (∀ t ∈ [((1000 : Int), (2000 : Int))],
          ∃ a ∈ [((0 : Int), (10000 : Int))], a.1 ≤ t.1 ∧ t.2 ≤ a.2))
    ∧ (List.Pairwise (fun o o' : String × Int × Int =>
          o.2.2 ≤ o'.2.1 ∨ o'.2.2 ≤ o.2.1)
        (find_background_regions [("chr1", [((0 : Int), (10000 : Int))])]
          [("chr1", [((1000 : Int), (2000 : Int))])] 200)
      ∧ ∀ o ∈ find_background_regions [("chr1", [((0 : Int), (10000 : Int))])]
          [("chr1", [((1000 : Int), (2000 : Int))])] 200,
          ∀ t ∈ [((1000 : Int), (2000 : Int))],
            o.2.2 ≤ t.1 - 200 ∨ t.2 + 200 ≤ o.2.1) := by
  refine ⟨⟨by decide, List.chain'_singleton _, by decide,
    List.chain'_singleton _, by decide, by decide⟩, ?_⟩
  exact c2_sweep_non_overlap_amended "chr1" [((1000 : Int), (2000 : Int))]
    [((0 : Int), (10000 : Int))] 200 (by decide) (List.chain'_singleton _)
    (by decide) (List.chain'_singleton _) (by decide) (by decide)

end Cnvkit
